import Mathlib

/-!
# A shallow embedding of the CART decision-tree classifier

This file embeds the `DecisionTreeClassifier` of the repository (the
decision-tree notebook: `best_node_split`, `build_tree`, `fit`, `predict`,
`_print_tree_aux`) as executable Lean definitions and proves the stated
properties of the natural-language specification against them.

Modelling conventions:
* numpy float64 feature values, thresholds and Gini impurities are modelled
  as exact rationals (`ℚ`);
* a 2-D observation matrix is a list of rows (`List (List ℚ)`), a label
  vector is a `List ℕ`, numpy integer counters are `ℤ`;
* `np.argsort` followed by fancy indexing is modelled by sorting the
  (value, label) pairs with `List.insertionSort` (any ascending sort gives
  the same observable results: midpoints between equal values are skipped);
* Python exceptions (`np.max` on an empty vector, indexing past the end of
  a row) surface as `Except`/`Option` failures;
* the recursion of `build_tree` terminates because the depth strictly
  increases towards `max_depth`; the embedding makes that explicit through
  a fuel parameter that is always instantiated with
  `(max_depth - depth).toNat`, the exact number of levels left.
-/

namespace DecisionTree

/-- One observation row: a rational feature value per feature. -/
abbrev Obs := List ℚ

/-- Reading feature `f` of a row (`row[f]`), with numpy-style in-bounds use
(out-of-bounds reads only occur where the source would raise, and are then
handled explicitly). -/
def colD (row : Obs) (f : ℕ) : ℚ := row.getD f 0

/-- The per-class observation counts of a label vector:
`np.array([np.sum(y == c) for c in range(n_classes)])`. -/
def class_counts (n_classes : ℕ) (y : List ℕ) : List ℤ :=
  (List.range n_classes).map fun c => (y.countP (fun l => l == c) : ℤ)

/-- The Gini impurity computed from a vector of class counts and the
number of observations: `1 - np.sum((counts / n) ** 2)`. -/
def gini_from_counts (counts : List ℤ) (n : ℤ) : ℚ :=
  1 - (counts.map fun c => ((c : ℚ) / (n : ℚ)) ^ 2).sum

/-- Models `np.argmax` on a count vector: the first index attaining the maximum. -/
def argmax_idx (l : List ℤ) : ℕ :=
  (l.enum.foldl (fun acc p => if p.2 > acc.2 then p else acc) (0, l.getD 0 0)).1

/-- Ordering of (feature value, label) pairs by feature value, as used to
model `np.argsort(X[:, feature])`. -/
def rowLE (a b : ℚ × ℕ) : Prop := a.1 ≤ b.1

instance : DecidableRel rowLE := fun a b => inferInstanceAs (Decidable (a.1 ≤ b.1))

instance : IsTotal (ℚ × ℕ) rowLE := ⟨fun a b => le_total a.1 b.1⟩

instance : IsTrans (ℚ × ℕ) rowLE := ⟨fun _ _ _ h h' => le_trans h h'⟩

/-- Sorting the subset by column `f`, carrying the aligned labels along
(`sorted_indices = np.argsort(X[:, feature])`; `X[sorted_indices, feature]`
and `y[sorted_indices]` are the two projections of the result). -/
def sort_by_feature (X : List Obs) (y : List ℕ) (f : ℕ) : List (ℚ × ℕ) :=
  List.insertionSort rowLE ((X.map (fun row => colD row f)).zip y)

/-- The running best split of the search: the smallest weighted Gini value
seen so far (initially the parent's own impurity) and the feature/threshold
that achieved it (initially `None`/`None`). -/
structure SearchState where
  bestGini : ℚ
  bestFeature : Option ℕ
  bestThreshold : Option ℚ

/-- Models `counts[c] += d` on a numpy count vector. -/
def bump (l : List ℤ) (c : ℕ) (d : ℤ) : List ℤ := l.set c (l.getD c 0 + d)

/-- One iteration of the inner loop of `best_node_split`: move the
observation just below the midpoint from the right child to the left child,
compute the weighted Gini impurity of the two children, skip the midpoint
if the two adjacent sorted values are equal, and otherwise record the
candidate when it strictly improves on the best impurity seen so far. -/
def inner_step (n : ℕ) (sv : List ℚ) (sc : List ℕ) (f : ℕ)
    (acc : List ℤ × List ℤ × SearchState) (i : ℕ) : List ℤ × List ℤ × SearchState :=
  let cl := sc.getD (i - 1) 0
  let left := bump acc.1 cl 1
  let right := bump acc.2.1 cl (-1)
  let gini_left := gini_from_counts left (i : ℤ)
  let gini_right := gini_from_counts right ((n : ℤ) - (i : ℤ))
  let g := (1 / (n : ℚ)) * ((i : ℚ) * gini_left + ((n : ℚ) - (i : ℚ)) * gini_right)
  let s := acc.2.2
  let s' :=
    if sv.getD i 0 = sv.getD (i - 1) 0 then s
    else if g < s.bestGini then
      ⟨g, some f, some ((sv.getD (i - 1) 0 + sv.getD i 0) / 2)⟩
    else s
  (left, right, s')

/-- The scan of one feature inside `best_node_split`: sort by the feature,
start with every observation in the right child, and walk the midpoints
`i = 1 … n-1` with the incremental count update. -/
def feature_scan (n_classes n : ℕ) (parentCounts : List ℤ) (X : List Obs) (y : List ℕ)
    (st : SearchState) (f : ℕ) : SearchState :=
  let sorted := sort_by_feature X y f
  let sv := sorted.map Prod.fst
  let sc := sorted.map Prod.snd
  ((List.range' 1 (n - 1)).foldl (inner_step n sv sc f)
    (List.replicate n_classes 0, parentCounts, st)).2.2

/-- Models `DecisionTreeClassifier.best_node_split`: the exhaustive split search.
Returns `(best_feature, best_threshold)`, both `None` when no candidate
strictly improves on the parent's own Gini impurity. -/
def best_node_split (n_classes n_features : ℕ) (X : List Obs) (y : List ℕ) :
    Option ℕ × Option ℚ :=
  let n := X.length
  let st0 : SearchState :=
    ⟨gini_from_counts (class_counts n_classes y) (n : ℤ), none, none⟩
  let final := (List.range n_features).foldl
    (feature_scan n_classes n (class_counts n_classes y) X y) st0
  (final.bestFeature, final.bestThreshold)

/-- The `Node` namedtuple of the source: a flat record whose children are
nullable (`left`/`right` are `None` exactly on leaves as built). -/
inductive Node where
  | mk (threshold : Option ℚ) (feature_index : Option ℕ) (majority_class : ℕ)
       (left : Option Node) (right : Option Node)

def Node.threshold : Node → Option ℚ
  | .mk t _ _ _ _ => t

def Node.feature_index : Node → Option ℕ
  | .mk _ f _ _ _ => f

def Node.majority_class : Node → ℕ
  | .mk _ _ m _ _ => m

def Node.left : Node → Option Node
  | .mk _ _ _ l _ => l

def Node.right : Node → Option Node
  | .mk _ _ _ _ r => r

/-- The pairs `(row, label)` with `X[:, best_feature] < best_threshold` —
the training subset handed to the left recursive call of `build_tree`. -/
def left_pairs (f : ℕ) (t : ℚ) (X : List Obs) (y : List ℕ) : List (Obs × ℕ) :=
  (X.zip y).filter fun p => decide (colD p.1 f < t)

/-- The pairs `(row, label)` with `X[:, best_feature] > best_threshold` —
the training subset handed to the right recursive call of `build_tree`. -/
def right_pairs (f : ℕ) (t : ℚ) (X : List Obs) (y : List ℕ) : List (Obs × ℕ) :=
  (X.zip y).filter fun p => decide (t < colD p.1 f)

/-- Models `DecisionTreeClassifier.build_tree`: compute the majority class of the
subset; below the depth bound run the split search, and when it returns a
feature partition the subset by strict `<` / `>` against the threshold and
recurse at `depth + 1`; otherwise construct a leaf node.  The `fuel`
argument is the termination measure `(max_depth - depth).toNat` (the number
of levels still allowed); every call instantiates it that way, so the
`fuel = 0` branch is only reached when `depth ≥ max_depth` fails the depth
test anyway. -/
def build_tree (n_classes n_features : ℕ) (max_depth : ℤ) (fuel : ℕ) (X : List Obs)
    (y : List ℕ) (depth : ℤ) : Node :=
  let mc := argmax_idx (class_counts n_classes y)
  if depth < max_depth then
    match fuel with
    | 0 => Node.mk none none mc none none
    | fuel' + 1 =>
      match best_node_split n_classes n_features X y with
      | (some bf, some bt) =>
        let lp := left_pairs bf bt X y
        let rp := right_pairs bf bt X y
        Node.mk (some bt) (some bf) mc
          (some (build_tree n_classes n_features max_depth fuel'
            (lp.map Prod.fst) (lp.map Prod.snd) (depth + 1)))
          (some (build_tree n_classes n_features max_depth fuel'
            (rp.map Prod.fst) (rp.map Prod.snd) (depth + 1)))
      | _ => Node.mk none none mc none none
  else Node.mk none none mc none none

/-- The state a fitted `DecisionTreeClassifier` instance carries. -/
structure FitModel where
  n_classes : ℕ
  n_features : ℕ
  max_depth : ℤ
  root : Node

/-- Models `DecisionTreeClassifier.fit`: record `n_features = X.shape[1]`,
`n_classes = np.max(y) + 1` and `max_depth`, then build the tree from the
root call `build_tree(X, y, 0)`.  `np.max` of an empty label vector raises
a `ValueError`; no other input validation is performed by the source. -/
def fit (X : List Obs) (y : List ℕ) (max_depth : ℤ) : Except String FitModel :=
  if y.isEmpty then
    Except.error "ValueError: zero-size array to reduction operation maximum"
  else
    let n_features := (X.headD []).length
    let n_classes := y.foldl max 0 + 1
    Except.ok ⟨n_classes, n_features, max_depth,
      build_tree n_classes n_features max_depth (max_depth - 0).toNat X y 0⟩

/-- The per-observation loop of `DecisionTreeClassifier.predict`: starting
from a node, while `node.left is not None` go to `node.left` when
`observation[node.feature_index] <= node.threshold` and to `node.right`
otherwise; on a node without a left child emit `node.majority_class`.
Reading a missing feature index, a `None` threshold/feature on an inner
node, or stepping to a `None` right child would raise in Python and is
modelled as `none`. -/
def predict_obs : Node → Obs → Option ℕ
  | .mk _ _ mc none _, _ => some mc
  | .mk th fi _ (some ln) r, obs =>
    match fi, th with
    | some f, some t =>
      if h : f < obs.length then
        if obs.get ⟨f, h⟩ ≤ t then predict_obs ln obs
        else
          match r with
          | some rn => predict_obs rn obs
          | none => none
      else none
    | _, _ => none

/-- Models `DecisionTreeClassifier.predict`: one predicted class per row of `X`,
collected in row order. -/
def predict (m : FitModel) (X : List Obs) : Option (List ℕ) :=
  X.mapM (predict_obs m.root)

/-- A repeated character, modelling Python's `k * ' '` and `k * '_'`. -/
def rep (k : ℕ) (c : Char) : String := String.mk (List.replicate k c)

/-- The smallest `k` with `den ∣ 10^k`, used to print an exactly-decimal
rational the way Python's `repr` prints the corresponding float. -/
def pow10_exp (den : ℕ) : Option ℕ :=
  (List.range 40).find? fun k => 10 ^ k % den == 0

/-- Left-pad a digit string with zeros to width `k`. -/
def pad_zeros (k : ℕ) (s : String) : String :=
  String.mk (List.replicate (k - s.length) '0') ++ s

/-- Python's float formatting (as used by the f-strings of the renderer)
for a rational with an exact decimal expansion: minimal digits, a trailing
`.0` for integral values. -/
def float_repr (q : ℚ) : String :=
  let sgn := if q.num < 0 then "-" else ""
  let a := q.num.natAbs
  match pow10_exp q.den with
  | some k =>
    if k = 0 then sgn ++ Nat.repr (a / q.den) ++ ".0"
    else sgn ++ Nat.repr (a / q.den) ++ "." ++
      pad_zeros k (Nat.repr (a % q.den * 10 ^ k / q.den))
  | none => sgn ++ Nat.repr a ++ "/" ++ Nat.repr q.den

/-- An optional integer as printed by a Python f-string. -/
def opt_nat_str : Option ℕ → String
  | none => "None"
  | some k => Nat.repr k

/-- An optional float as printed by a Python f-string. -/
def opt_rat_str : Option ℚ → String
  | none => "None"
  | some q => float_repr q

/-- Models `DecisionTreeClassifier._print_tree_aux`: the recursive text layout.
On a node with `left` and `right` both `None` it renders the single line
`"c: <majority_class>"`; otherwise it renders both children, joins them
under the label line `"f: <feature_index>, t: <threshold>"` with underscore
connectors and `/`, `\` branch glyphs, pads the shorter block with blank
lines, and returns `(lines, width, height, root column)`.  A node with
exactly one `None` child would crash in Python (`_print_tree_aux(None)`)
and is modelled as `none`. -/
def print_tree_aux : Node → Option (List String × ℕ × ℕ × ℕ)
  | .mk _ _ mc none none =>
    let line := "c: " ++ Nat.repr mc
    some ([line], line.length, 1, line.length / 2)
  | .mk th fi _ (some ln) (some rn) =>
    match print_tree_aux ln, print_tree_aux rn with
    | some (left, n, p, x), some (right, m, q, y) =>
      let s := "f: " ++ opt_nat_str fi ++ ", t: " ++ opt_rat_str th
      let u := s.length
      let first_line :=
        rep (x + 1) ' ' ++ rep (n - x - 1) '_' ++ s ++ rep y '_' ++ rep (m - y) ' '
      let second_line :=
        rep x ' ' ++ "/" ++ rep (n - x - 1 + u + y) ' ' ++ "\\" ++ rep (m - y - 1) ' '
      let left' := if p < q then left ++ List.replicate (q - p) (rep n ' ') else left
      let right' := if q < p then right ++ List.replicate (p - q) (rep m ' ') else right
      let zipped := left'.zip right'
      some (first_line :: second_line :: zipped.map (fun ab => ab.1 ++ rep u ' ' ++ ab.2),
        n + m + u, max p q + 2, n + u / 2)
    | _, _ => none
  | _ => none

/-- The height of a node: `0` on a childless node, one more than the
deepest child otherwise.  A leaf at depth `d` of the tree makes the root's
height at least `d`. -/
def node_height : Node → ℕ
  | .mk _ _ _ l r =>
    (match l with | none => 0 | some c => node_height c + 1).max
    (match r with | none => 0 | some c => node_height c + 1)

/-- Whether `left` and `right` are `None` together or set together,
recursively at every node of the tree. -/
def children_aligned : Node → Bool
  | .mk _ _ _ none none => true
  | .mk _ _ _ (some l) (some r) => children_aligned l && children_aligned r
  | _ => false

/-!
## The specification's description of the split search

The specification describes `best_node_split` as an enumeration of
candidates — one per midpoint of adjacent **distinct** sorted values of
each feature, in ascending feature order and ascending threshold order —
from which the first candidate attaining the minimal weighted Gini
impurity is selected when that minimum strictly improves on the parent's
own impurity.  The following definitions state that description so that it
can be compared with the algorithm above.
-/

/-- One candidate split as the specification describes it: feature index,
position `i` of the midpoint in the sorted order, the threshold (midpoint
of the two adjacent distinct sorted values) and the weighted Gini impurity
of the two partitions it induces (`n_left = i`, `n_right = n - i`). -/
structure Candidate where
  feature : ℕ
  idx : ℕ
  threshold : ℚ
  wgini : ℚ
deriving DecidableEq

/-- The weighted Gini impurity of the candidate at midpoint `i` of the
sorted labels `sc`: the first `i` sorted observations form the left child,
the remaining `n - i` the right child. -/
def cand_weighted_gini (n_classes n : ℕ) (sc : List ℕ) (i : ℕ) : ℚ :=
  (1 / (n : ℚ)) *
    ((i : ℚ) * gini_from_counts (class_counts n_classes (sc.take i)) (i : ℤ) +
     ((n : ℚ) - (i : ℚ)) * gini_from_counts (class_counts n_classes (sc.drop i)) ((n : ℤ) - (i : ℤ)))

/-- The candidate at midpoint `i` of feature `f`, or `none` when the two
adjacent sorted values are equal (the skipped midpoints). -/
def mk_candidate (n_classes n : ℕ) (sv : List ℚ) (sc : List ℕ) (f : ℕ) (i : ℕ) :
    Option Candidate :=
  if sv.getD i 0 = sv.getD (i - 1) 0 then none
  else some ⟨f, i, (sv.getD (i - 1) 0 + sv.getD i 0) / 2, cand_weighted_gini n_classes n sc i⟩

/-- All candidates of one feature, in ascending threshold order. -/
def feature_candidates (n_classes : ℕ) (X : List Obs) (y : List ℕ) (f : ℕ) :
    List Candidate :=
  let n := X.length
  let sorted := sort_by_feature X y f
  (List.range' 1 (n - 1)).filterMap
    (mk_candidate n_classes n (sorted.map Prod.fst) (sorted.map Prod.snd) f)

/-- Every candidate of every feature, features in ascending index order and
thresholds in ascending order within a feature — the enumeration order of
the search. -/
def all_candidates (n_classes n_features : ℕ) (X : List Obs) (y : List ℕ) :
    List Candidate :=
  (List.range n_features).flatMap (feature_candidates n_classes X y)

/-- The parent subset's own Gini impurity. -/
def parent_gini (n_classes : ℕ) (X : List Obs) (y : List ℕ) : ℚ :=
  gini_from_counts (class_counts n_classes y) (X.length : ℤ)

/-- The selection step of the search: a candidate replaces the running best
exactly when its weighted Gini impurity is strictly smaller. -/
def sel_step (s : SearchState) (c : Candidate) : SearchState :=
  if c.wgini < s.bestGini then ⟨c.wgini, some c.feature, some c.threshold⟩ else s

/-!
## The concrete scenario of the specification
-/

/-- The observation matrix of the specification's concrete scenario. -/
def scenario_X : List Obs := [[1], [2], [3], [4]]

/-- The label vector of the specification's concrete scenario. -/
def scenario_y : List ℕ := [0, 0, 1, 1]

/-- The model the scenario's `fit` call produces: a root split on feature 0
at threshold `5/2` with a class-0 leaf on the left and a class-1 leaf on
the right. -/
def scenario_model : FitModel :=
  ⟨2, 1, 1, Node.mk (some (5 / 2)) (some 0) 0
    (some (Node.mk none none 0 none none)) (some (Node.mk none none 1 none none))⟩

lemma best_node_split_scenario :
    best_node_split 2 1 scenario_X scenario_y = (some 0, some (5 / 2)) := by
  have hr1 : List.range 1 = [0] := rfl
  have hr2 : List.range' 1 3 = [1, 2, 3] := rfl
  have hcc : class_counts 2 [0, 0, 1, 1] = [2, 2] := rfl
  have hrep : List.replicate 2 (0 : ℤ) = [0, 0] := rfl
  norm_num [scenario_X, scenario_y, best_node_split, feature_scan, sort_by_feature,
    colD, List.insertionSort, List.orderedInsert, rowLE, hr1, hr2, hcc, hrep,
    inner_step, bump, gini_from_counts, List.set, List.getD, List.getElem?_cons]

lemma fit_scenario : fit scenario_X scenario_y 1 = Except.ok scenario_model := by
  have hb := best_node_split_scenario
  rw [scenario_X, scenario_y] at hb
  have hl : left_pairs 0 (5 / 2) [[1], [2], [3], [4]] [0, 0, 1, 1] = [([1], 0), ([2], 0)] := by
    norm_num [left_pairs, colD, List.filter]
  have hr : right_pairs 0 (5 / 2) [[1], [2], [3], [4]] [0, 0, 1, 1] = [([3], 1), ([4], 1)] := by
    norm_num [right_pairs, colD, List.filter]
  have ha0 : argmax_idx (class_counts 2 [0, 0, 1, 1]) = 0 := rfl
  have ha1 : argmax_idx (class_counts 2 [0, 0]) = 0 := rfl
  have ha2 : argmax_idx (class_counts 2 [1, 1]) = 1 := rfl
  norm_num [scenario_X, scenario_y, scenario_model, fit, build_tree, hb, hl, hr,
    ha0, ha1, ha2]

lemma float_repr_five_halves : float_repr (5 / 2) = "2.5" := by
  have hnum : (5 / 2 : ℚ).num = 5 := by norm_num
  have hden : (5 / 2 : ℚ).den = 2 := by norm_num
  simp only [float_repr, hnum, hden]
  rfl

/-!
## The claims
-/

/-- C2. For `X = [[1],[2],[3],[4]]`, `y = [0,0,1,1]`, `max_depth = 1`,
`fit` produces a root split on feature 0 with threshold `2.5`, a left leaf
of class 0 and a right leaf of class 1; `predict` on `[[1.5],[3.5]]`
returns `[0, 1]`. -/
theorem fit_predict_concrete_scenario :
    fit scenario_X scenario_y 1 =
      Except.ok ⟨2, 1, 1, Node.mk (some (2.5 : ℚ)) (some 0) 0
        (some (Node.mk none none 0 none none)) (some (Node.mk none none 1 none none))⟩
    ∧ predict scenario_model [[(1.5 : ℚ)], [(3.5 : ℚ)]] = some [0, 1] := by
  have h25 : (2.5 : ℚ) = 5 / 2 := by norm_num
  have h15 : (1.5 : ℚ) = 3 / 2 := by norm_num
  have h35 : (3.5 : ℚ) = 7 / 2 := by norm_num
  rw [h25, h15, h35]
  refine ⟨fit_scenario, ?_⟩
  norm_num [predict, scenario_model, predict_obs, List.mapM, List.mapM.loop, List.get]

/-- C5, counterexample. The claim says `fit` fails with an
`InvalidInputError` whenever `max_depth` is negative; on the concrete input
`X = [[1],[2]]`, `y = [0,1]`, `max_depth = -1` the source validates nothing
and returns a single-leaf tree successfully. -/
theorem fit_negative_max_depth_succeeds :
    fit [[1], [2]] [0, 1] (-1) =
      Except.ok ⟨2, 1, -1, Node.mk none none 0 none none⟩ := by
  have ha : argmax_idx (class_counts 2 [0, 1]) = 0 := rfl
  norm_num [fit, build_tree, ha]

/-- C5, amended. `fit` performs no precondition validation: a negative
`max_depth` silently yields a single-leaf tree, mismatched row counts are
not rejected at entry, and an empty dataset fails with numpy's `ValueError`
(raised by `np.max` on the empty label vector), not with an
`InvalidInputError` — no such error exists in the source. -/
theorem fit_performs_no_validation (X : List Obs) (y : List ℕ) (md : ℤ)
    (hmd : md < 0) (hy : y ≠ []) :
    (∃ m, fit X y md = Except.ok m ∧ m.root.left = none ∧ m.root.right = none)
    ∧ (∀ (X' : List Obs) (md' : ℤ),
        fit X' [] md' =
          Except.error "ValueError: zero-size array to reduction operation maximum")
    ∧ (fit [[1], [2], [3]] [0, 1] 0).isOk = true := by
  refine ⟨?_, ?_, ?_⟩
  · refine ⟨⟨y.foldl max 0 + 1, (X.headD []).length, md,
      Node.mk none none (argmax_idx (class_counts (y.foldl max 0 + 1) y)) none none⟩, ?_, rfl, rfl⟩
    have hiy : y.isEmpty = false := by simpa [List.isEmpty_iff] using hy
    have hlt : ¬ ((0 : ℤ) < md) := by omega
    simp only [fit, hiy, Bool.false_eq_true, if_false]
    rw [build_tree.eq_def, if_neg hlt]
  · intro X' md'
    simp [fit]
  · have ha : argmax_idx (class_counts 2 [0, 1]) = 0 := rfl
    norm_num [fit, build_tree, ha, Except.isOk, Except.toBool]

/-- C5, witness. -/
theorem fit_performs_no_validation_witness :
    (-1 : ℤ) < 0 ∧ ([0] : List ℕ) ≠ [] ∧
    ((∃ m, fit [[1]] [0] (-1) = Except.ok m ∧ m.root.left = none ∧ m.root.right = none)
     ∧ (∀ (X' : List Obs) (md' : ℤ),
         fit X' [] md' =
           Except.error "ValueError: zero-size array to reduction operation maximum")
     ∧ (fit [[1], [2], [3]] [0, 1] 0).isOk = true) :=
  ⟨by norm_num, by simp, fit_performs_no_validation [[1]] [0] (-1) (by norm_num) (by simp)⟩

/-- C6, counterexample. The claim says `predict` fails with a
`DimensionMismatchError` whenever the column count differs from the feature
count used at fit time; the scenario model was fitted on 1 feature, yet
`predict` on the 2-column row `[1, 99]` succeeds and returns `[0]`. -/
theorem predict_extra_columns_succeeds :
    (fit scenario_X scenario_y 1).toOption.bind (fun m => predict m [[1, 99]]) = some [0] := by
  rw [fit_scenario]
  norm_num [predict, scenario_model, predict_obs, List.mapM, List.mapM.loop, List.get,
    Except.toOption]

/-- C6, amended. `predict` performs no column-count validation: a row
with more columns than the fitted feature count is classified normally
(the extra features are ignored), and a row too short for a split's feature
index fails with numpy's `IndexError` (modelled `none`), not with a
`DimensionMismatchError` — no such error exists in the source.  The
embedding of `predict` is a pure function of the model, so no failure can
alter the fitted tree. -/
theorem predict_performs_no_dimension_check (m : FitModel)
    (hm : fit scenario_X scenario_y 1 = Except.ok m) :
    predict m [[1, 99]] = some [0] ∧ predict m [[]] = none := by
  rw [fit_scenario] at hm
  cases hm
  constructor
  · norm_num [predict, scenario_model, predict_obs, List.mapM, List.mapM.loop, List.get]
  · norm_num [predict, scenario_model, predict_obs, List.mapM, List.mapM.loop]

/-- C6, witness. -/
theorem predict_performs_no_dimension_check_witness :
    fit scenario_X scenario_y 1 = Except.ok scenario_model ∧
    (predict scenario_model [[1, 99]] = some [0] ∧ predict scenario_model [[]] = none) :=
  ⟨fit_scenario, predict_performs_no_dimension_check scenario_model fit_scenario⟩

/-- C7. Prediction walks from the root: at a split node (left child
present) with its feature readable from the row, it goes left exactly when
`observation[feature_index] ≤ threshold` and right otherwise; at a node
without a left child it emits `majority_class`; `predict` does this for
every row independently. -/
theorem predict_traversal_contract (th : ℚ) (fi mc : ℕ) (l r : Node) (obs : Obs)
    (h : fi < obs.length) :
    (predict_obs (Node.mk (some th) (some fi) mc (some l) (some r)) obs
      = if obs.get ⟨fi, h⟩ ≤ th then predict_obs l obs else predict_obs r obs)
    ∧ (∀ (th' : Option ℚ) (fi' : Option ℕ) (mc' : ℕ) (r' : Option Node),
        predict_obs (Node.mk th' fi' mc' none r') obs = some mc')
    ∧ (∀ (M : FitModel) (Xq : List Obs), predict M Xq = Xq.mapM (predict_obs M.root)) := by
  refine ⟨?_, fun _ _ _ _ => rfl, fun _ _ => rfl⟩
  simp only [predict_obs]
  rw [dif_pos h]

/-- C7, witness. -/
theorem predict_traversal_contract_witness :
    (0 : ℕ) < ([(3 / 2 : ℚ)] : Obs).length ∧
    ((predict_obs (Node.mk (some (5 / 2)) (some 0) 7
        (some (Node.mk none none 0 none none)) (some (Node.mk none none 1 none none))) [(3 / 2 : ℚ)]
      = if ([(3 / 2 : ℚ)] : Obs).get ⟨0, by norm_num⟩ ≤ 5 / 2
        then predict_obs (Node.mk none none 0 none none) [(3 / 2 : ℚ)]
        else predict_obs (Node.mk none none 1 none none) [(3 / 2 : ℚ)])
    ∧ (∀ (th' : Option ℚ) (fi' : Option ℕ) (mc' : ℕ) (r' : Option Node),
        predict_obs (Node.mk th' fi' mc' none r') [(3 / 2 : ℚ)] = some mc')
    ∧ (∀ (M : FitModel) (Xq : List Obs), predict M Xq = Xq.mapM (predict_obs M.root))) :=
  ⟨by norm_num,
   predict_traversal_contract (5 / 2) 0 7
     (Node.mk none none 0 none none) (Node.mk none none 1 none none) [(3 / 2 : ℚ)] (by norm_num)⟩

/-- C8. A childless node renders as the single line
`"c: <majority_class>"` with width the line's length, height 1 and root
offset `width / 2`; the scenario's single-split tree renders as exactly 3
lines whose label line contains `"f: 0, t: 2.5"`, with the `/` glyph at
column 2 — the left leaf's reported root offset — and the `\` glyph at
column 18 = 4 + 12 + 2 — the right leaf's root offset shifted by the left
block's width plus the label's width. -/
theorem render_leaf_and_scenario :
    (∀ (mc : ℕ) (th : Option ℚ) (fi : Option ℕ),
      print_tree_aux (Node.mk th fi mc none none) =
        some (["c: " ++ Nat.repr mc], ("c: " ++ Nat.repr mc).length, 1,
          ("c: " ++ Nat.repr mc).length / 2))
    ∧ print_tree_aux scenario_model.root =
        some (["   _" ++ "f: 0, t: 2.5" ++ "__  ",
               "  /               \\ ",
               "c: 0            c: 1"], 20, 3, 10)
    ∧ print_tree_aux (Node.mk none none 0 none none) = some (["c: 0"], 4, 1, 2)
    ∧ print_tree_aux (Node.mk none none 1 none none) = some (["c: 1"], 4, 1, 2)
    ∧ "  /               \\ ".data.getD 2 ' ' = '/'
    ∧ "  /               \\ ".data.getD 18 ' ' = '\\' := by
  refine ⟨fun mc th fi => rfl, ?_, rfl, rfl, rfl, rfl⟩
  simp only [scenario_model, print_tree_aux, opt_rat_str, opt_nat_str, float_repr_five_halves]
  rfl

/-!
## Structural invariants of the built tree
-/

lemma node_height_build_tree (nc nf : ℕ) (md : ℤ) :
    ∀ (fuel : ℕ) (X : List Obs) (y : List ℕ) (d : ℤ),
      node_height (build_tree nc nf md fuel X y d) ≤ fuel := by
  intro fuel
  induction fuel with
  | zero =>
    intro X y d
    rw [build_tree.eq_def]
    dsimp only
    split
    · simp [node_height]
    · simp [node_height]
  | succ fuel ih =>
    intro X y d
    rw [build_tree.eq_def]
    dsimp only
    split
    · split
      · simp only [node_height]
        exact max_le (Nat.succ_le_succ (ih _ _ _)) (Nat.succ_le_succ (ih _ _ _))
      · simp [node_height]
    · simp [node_height]

lemma children_aligned_build_tree (nc nf : ℕ) (md : ℤ) :
    ∀ (fuel : ℕ) (X : List Obs) (y : List ℕ) (d : ℤ),
      children_aligned (build_tree nc nf md fuel X y d) = true := by
  intro fuel
  induction fuel with
  | zero =>
    intro X y d
    rw [build_tree.eq_def]
    dsimp only
    split
    · simp [children_aligned]
    · simp [children_aligned]
  | succ fuel ih =>
    intro X y d
    rw [build_tree.eq_def]
    dsimp only
    split
    · split
      · simp only [children_aligned, Bool.and_eq_true]
        exact ⟨ih _ _ _, ih _ _ _⟩
      · simp [children_aligned]
    · simp [children_aligned]

/-- C3. For every input accepted by `fit` and every `max_depth ≥ 0`,
the returned tree has no leaf deeper than `max_depth` (its height is at
most `max_depth`), and with `max_depth = 0` the root itself is a leaf —
the depth test precedes the split search, so no split is ever attempted at
depth `max_depth`. -/
theorem fit_depth_bound (X : List Obs) (y : List ℕ) (md : ℤ)
    (hmd : 0 ≤ md) (hy : y ≠ []) :
    ∃ m, fit X y md = Except.ok m ∧ (node_height m.root : ℤ) ≤ md
      ∧ (md = 0 → m.root.left = none ∧ m.root.right = none) := by
  have hiy : y.isEmpty = false := by simpa [List.isEmpty_iff] using hy
  refine ⟨⟨y.foldl max 0 + 1, (X.headD []).length, md,
    build_tree (y.foldl max 0 + 1) (X.headD []).length md (md - 0).toNat X y 0⟩, ?_, ?_, ?_⟩
  · simp [fit, hiy]
  · calc (node_height (build_tree (y.foldl max 0 + 1) (X.headD []).length md
          (md - 0).toNat X y 0) : ℤ)
        ≤ ((md - 0).toNat : ℤ) := by exact_mod_cast node_height_build_tree _ _ _ _ _ _ _
      _ = md := by omega
  · intro h0
    subst h0
    rw [build_tree.eq_def]
    simp [Node.left, Node.right]

/-- C3, witness. -/
theorem fit_depth_bound_witness :
    (0 : ℤ) ≤ 1 ∧ ([0] : List ℕ) ≠ [] ∧
    (∃ m, fit [[1]] [0] 1 = Except.ok m ∧ (node_height m.root : ℤ) ≤ 1
      ∧ ((1 : ℤ) = 0 → m.root.left = none ∧ m.root.right = none)) :=
  ⟨by norm_num, by simp, fit_depth_bound [[1]] [0] 1 (by norm_num) (by simp)⟩

/-- C10. Every node of a tree built by `build_tree` has `left = None`
exactly when `right = None` (the children are set together or not at all),
so the predictor's leaf test — which inspects only the left child —
identifies exactly the leaf nodes and never sends the traversal to a
`None` right child. -/
theorem built_tree_children_aligned (X : List Obs) (y : List ℕ) (md : ℤ)
    (hy : y ≠ []) :
    (∃ m, fit X y md = Except.ok m ∧ children_aligned m.root = true)
    ∧ ∀ (t : Option ℚ) (f : Option ℕ) (mc : ℕ) (l r : Option Node),
        children_aligned (Node.mk t f mc l r) = true → (l = none ↔ r = none) := by
  have hiy : y.isEmpty = false := by simpa [List.isEmpty_iff] using hy
  constructor
  · refine ⟨⟨y.foldl max 0 + 1, (X.headD []).length, md,
      build_tree (y.foldl max 0 + 1) (X.headD []).length md (md - 0).toNat X y 0⟩, ?_, ?_⟩
    · simp [fit, hiy]
    · exact children_aligned_build_tree _ _ _ _ _ _ _
  · intro t f mc l r h
    cases l <;> cases r <;> simp_all [children_aligned]

/-- C10, witness. -/
theorem built_tree_children_aligned_witness :
    ([0] : List ℕ) ≠ [] ∧
    ((∃ m, fit [[1]] [0] 1 = Except.ok m ∧ children_aligned m.root = true)
     ∧ ∀ (t : Option ℚ) (f : Option ℕ) (mc : ℕ) (l r : Option Node),
         children_aligned (Node.mk t f mc l r) = true → (l = none ↔ r = none)) :=
  ⟨by simp, built_tree_children_aligned [[1]] [0] 1 (by simp)⟩

/-!
## The selection fold

`best_node_split` threads a `SearchState` through every candidate it
examines, replacing the running best exactly on a strict improvement.  The
two lemmas below characterise such a fold: it returns its start state when
no candidate improves on it, and otherwise it returns the first candidate
attaining the minimum.
-/

lemma foldl_sel_step_no_improvement (cs : List Candidate) (s : SearchState)
    (h : ∀ c ∈ cs, s.bestGini ≤ c.wgini) : cs.foldl sel_step s = s := by
  induction cs with
  | nil => rfl
  | cons c cs ih =>
    rw [List.foldl_cons, sel_step, if_neg (not_lt.2 (h c (by simp)))]
    exact ih fun c' hc' => h c' (by simp [hc'])

lemma foldl_sel_step_improvement (cs : List Candidate) (s : SearchState)
    (h : ∃ c ∈ cs, c.wgini < s.bestGini) :
    ∃ l₁ c l₂, cs = l₁ ++ c :: l₂ ∧ c.wgini < s.bestGini
      ∧ (∀ p ∈ l₁, c.wgini < p.wgini) ∧ (∀ q ∈ l₂, c.wgini ≤ q.wgini)
      ∧ cs.foldl sel_step s = ⟨c.wgini, some c.feature, some c.threshold⟩ := by
  induction cs generalizing s with
  | nil => simp at h
  | cons c₀ cs ih =>
    rw [List.foldl_cons, sel_step]
    by_cases h₀ : c₀.wgini < s.bestGini
    · rw [if_pos h₀]
      by_cases h₁ : ∃ c ∈ cs, c.wgini < c₀.wgini
      · obtain ⟨l₁, c, l₂, hcs, hlt, hl₁, hl₂, hfold⟩ :=
          ih ⟨c₀.wgini, some c₀.feature, some c₀.threshold⟩ (by simpa using h₁)
        refine ⟨c₀ :: l₁, c, l₂, by simp [hcs], lt_trans hlt h₀, ?_, hl₂, hfold⟩
        intro p hp
        rcases List.mem_cons.1 hp with hp | hp
        · subst hp; exact hlt
        · exact hl₁ p hp
      · push_neg at h₁
        rw [foldl_sel_step_no_improvement cs _ (by simpa using h₁)]
        exact ⟨[], c₀, cs, rfl, h₀, by simp, h₁, rfl⟩
    · rw [if_neg h₀]
      have h' : ∃ c ∈ cs, c.wgini < s.bestGini := by
        rcases h with ⟨c, hc, hlt⟩
        rcases List.mem_cons.1 hc with hc | hc
        · exact absurd (hc ▸ hlt) h₀
        · exact ⟨c, hc, hlt⟩
      obtain ⟨l₁, c, l₂, hcs, hlt, hl₁, hl₂, hfold⟩ := ih s h'
      refine ⟨c₀ :: l₁, c, l₂, by simp [hcs], hlt, ?_, hl₂, hfold⟩
      intro p hp
      rcases List.mem_cons.1 hp with hp | hp
      · subst hp; exact lt_of_lt_of_le hlt (not_lt.1 h₀)
      · exact hl₁ p hp

/-!
## Counting lemmas for the incremental class counts
-/

lemma class_counts_length (nc : ℕ) (l : List ℕ) : (class_counts nc l).length = nc := by
  simp [class_counts]

lemma getD_class_counts (nc : ℕ) (l : List ℕ) (j : ℕ) (hj : j < nc) :
    (class_counts nc l).getD j 0 = (l.countP (fun x => x == j) : ℤ) := by
  have hlen : j < (class_counts nc l).length := by rwa [class_counts_length]
  rw [List.getD_eq_getElem _ _ hlen]
  simp [class_counts]

lemma class_counts_nil (nc : ℕ) : class_counts nc [] = List.replicate nc 0 := by
  apply List.ext_getElem
  · simp [class_counts_length]
  · intro j h1 h2
    simp [class_counts]

lemma class_counts_perm (nc : ℕ) {l l' : List ℕ} (h : l.Perm l') :
    class_counts nc l = class_counts nc l' := by
  unfold class_counts
  exact List.map_congr_left fun c _ => by rw [h.countP_eq]

lemma bump_class_counts_take (nc : ℕ) (l : List ℕ) (i : ℕ) (hi : i < l.length)
    (hc : l.getD i 0 < nc) :
    bump (class_counts nc (l.take i)) (l.getD i 0) 1 = class_counts nc (l.take (i + 1)) := by
  have hgd : l.getD i 0 = l[i] := List.getD_eq_getElem l 0 hi
  have htake : l.take (i + 1) = l.take i ++ [l[i]] := by
    rw [List.take_succ, List.getElem?_eq_getElem hi]
    rfl
  apply List.ext_getElem
  · simp [bump, class_counts_length]
  · intro j h1 h2
    have hj : j < nc := by
      have := h2; rwa [class_counts_length] at this
    have hLlen : j < (class_counts nc (l.take i)).length := by rwa [class_counts_length]
    have hR : (class_counts nc (l.take (i + 1)))[j]
        = ((l.take (i + 1)).countP (fun x => x == j) : ℤ) := by
      simp [class_counts]
    have hL : (class_counts nc (l.take i))[j]
        = ((l.take i).countP (fun x => x == j) : ℤ) := by
      simp [class_counts]
    simp only [bump]
    rw [List.getElem_set, hR, htake, List.countP_append]
    by_cases hcj : l.getD i 0 = j
    · rw [if_pos hcj, getD_class_counts nc _ _ hc, hcj]
      have hb : (l[i] == j) = true := by rw [← hgd, hcj, beq_self_eq_true]
      simp [hb]
    · rw [if_neg hcj, hL]
      have hb : (l[i] == j) = false := by
        rw [← hgd]; exact beq_eq_false_iff_ne.2 hcj
      simp [hb]

lemma bump_class_counts_drop (nc : ℕ) (l : List ℕ) (i : ℕ) (hi : i < l.length)
    (hc : l.getD i 0 < nc) :
    bump (class_counts nc (l.drop i)) (l.getD i 0) (-1) = class_counts nc (l.drop (i + 1)) := by
  have hgd : l.getD i 0 = l[i] := List.getD_eq_getElem l 0 hi
  have hdrop : l.drop i = l[i] :: l.drop (i + 1) := List.drop_eq_getElem_cons hi
  apply List.ext_getElem
  · simp [bump, class_counts_length]
  · intro j h1 h2
    have hj : j < nc := by
      have := h2; rwa [class_counts_length] at this
    have hLlen : j < (class_counts nc (l.drop i)).length := by rwa [class_counts_length]
    have hR : (class_counts nc (l.drop (i + 1)))[j]
        = ((l.drop (i + 1)).countP (fun x => x == j) : ℤ) := by
      simp [class_counts]
    have hL : (class_counts nc (l.drop i))[j]
        = ((l.drop i).countP (fun x => x == j) : ℤ) := by
      simp [class_counts]
    simp only [bump]
    rw [List.getElem_set, hR]
    by_cases hcj : l.getD i 0 = j
    · rw [if_pos hcj, getD_class_counts nc _ _ hc, hcj]
      have hb : (l[i] == j) = true := by rw [← hgd, hcj, beq_self_eq_true]
      have hcnt : (l.drop i).countP (fun x => x == j)
          = (l.drop (i + 1)).countP (fun x => x == j) + 1 := by
        rw [hdrop, List.countP_cons, hb]
        simp
      rw [hcnt]
      push_cast
      ring
    · rw [if_neg hcj, hL]
      have hb : (l[i] == j) = false := by
        rw [← hgd]; exact beq_eq_false_iff_ne.2 hcj
      rw [hdrop, List.countP_cons, hb]
      simp

lemma inner_loop_eq (nc n : ℕ) (sv : List ℚ) (sc : List ℕ) (f : ℕ)
    (hsc : sc.length = n) (hcl : ∀ c ∈ sc, c < nc) :
    ∀ (len i₀ : ℕ) (st : SearchState), 1 ≤ i₀ → i₀ + len ≤ n →
      ((List.range' i₀ len).foldl (inner_step n sv sc f)
        (class_counts nc (sc.take (i₀ - 1)), class_counts nc (sc.drop (i₀ - 1)), st)).2.2
      = ((List.range' i₀ len).filterMap (mk_candidate nc n sv sc f)).foldl sel_step st := by
  intro len
  induction len with
  | zero => intro i₀ st h1 h2; rfl
  | succ len ih =>
    intro i₀ st h1 h2
    have hi : i₀ - 1 < sc.length := by omega
    have hmem : sc.getD (i₀ - 1) 0 ∈ sc := by
      rw [List.getD_eq_getElem _ _ hi]
      exact List.getElem_mem hi
    have hcmem : sc.getD (i₀ - 1) 0 < nc := hcl _ hmem
    have hbl : bump (class_counts nc (sc.take (i₀ - 1))) (sc.getD (i₀ - 1) 0) 1
        = class_counts nc (sc.take i₀) := by
      have h' := bump_class_counts_take nc sc (i₀ - 1) hi hcmem
      rwa [show i₀ - 1 + 1 = i₀ by omega] at h'
    have hbr : bump (class_counts nc (sc.drop (i₀ - 1))) (sc.getD (i₀ - 1) 0) (-1)
        = class_counts nc (sc.drop i₀) := by
      have h' := bump_class_counts_drop nc sc (i₀ - 1) hi hcmem
      rwa [show i₀ - 1 + 1 = i₀ by omega] at h'
    rw [List.range'_succ, List.foldl_cons, List.filterMap_cons]
    simp only [inner_step, hbl, hbr]
    by_cases hskip : sv.getD i₀ 0 = sv.getD (i₀ - 1) 0
    · rw [if_pos hskip]
      simp only [mk_candidate, if_pos hskip]
      have := ih (i₀ + 1) st (by omega) (by omega)
      simpa using this
    · rw [if_neg hskip]
      simp only [mk_candidate, if_neg hskip]
      rw [List.foldl_cons]
      have := ih (i₀ + 1)
        (sel_step st ⟨f, i₀, (sv.getD (i₀ - 1) 0 + sv.getD i₀ 0) / 2, cand_weighted_gini nc n sc i₀⟩)
        (by omega) (by omega)
      simp only [Nat.add_sub_cancel] at this
      rw [← this]
      simp only [sel_step, cand_weighted_gini]

lemma sc_perm (X : List Obs) (y : List ℕ) (f : ℕ) (hy : y.length = X.length) :
    ((sort_by_feature X y f).map Prod.snd).Perm y := by
  have hp : (sort_by_feature X y f).Perm ((X.map fun row => colD row f).zip y) :=
    List.perm_insertionSort _ _
  have h := hp.map Prod.snd
  rwa [List.map_snd_zip _ _ (by simp [hy])] at h

lemma sv_perm (X : List Obs) (y : List ℕ) (f : ℕ) (hy : y.length = X.length) :
    ((sort_by_feature X y f).map Prod.fst).Perm (X.map fun row => colD row f) := by
  have hp : (sort_by_feature X y f).Perm ((X.map fun row => colD row f).zip y) :=
    List.perm_insertionSort _ _
  have h := hp.map Prod.fst
  rwa [List.map_fst_zip _ _ (by simp [hy])] at h

lemma sv_sorted (X : List Obs) (y : List ℕ) (f : ℕ) :
    List.Sorted (· ≤ ·) ((sort_by_feature X y f).map Prod.fst) := by
  have h := List.sorted_insertionSort rowLE ((X.map fun row => colD row f).zip y)
  exact List.Pairwise.map Prod.fst (fun a b hab => hab) h

lemma feature_scan_eq (nc : ℕ) (X : List Obs) (y : List ℕ) (st : SearchState) (f : ℕ)
    (hy : y.length = X.length) (hcl : ∀ c ∈ y, c < nc) :
    feature_scan nc X.length (class_counts nc y) X y st f
      = (feature_candidates nc X y f).foldl sel_step st := by
  have hscp : ((sort_by_feature X y f).map Prod.snd).Perm y := sc_perm X y f hy
  have hsc : ((sort_by_feature X y f).map Prod.snd).length = X.length := by
    rw [hscp.length_eq, hy]
  have hcl' : ∀ c ∈ (sort_by_feature X y f).map Prod.snd, c < nc :=
    fun c hc => hcl c (hscp.subset hc)
  rcases Nat.eq_zero_or_pos X.length with h0 | hpos
  · unfold feature_scan feature_candidates
    rw [h0]
    rfl
  · have h := inner_loop_eq nc X.length ((sort_by_feature X y f).map Prod.fst)
      ((sort_by_feature X y f).map Prod.snd) f hsc hcl' (X.length - 1) 1 st
      (le_refl 1) (by omega)
    simp only [Nat.sub_self, List.take_zero, List.drop_zero] at h
    rw [class_counts_nil, class_counts_perm nc hscp] at h
    exact h

lemma foldl_feature_scan_flatMap (nc : ℕ) (X : List Obs) (y : List ℕ)
    (hy : y.length = X.length) (hcl : ∀ c ∈ y, c < nc) :
    ∀ (fs : List ℕ) (st : SearchState),
      fs.foldl (feature_scan nc X.length (class_counts nc y) X y) st
        = (fs.flatMap (feature_candidates nc X y)).foldl sel_step st := by
  intro fs
  induction fs with
  | nil => intro st; rfl
  | cons f fs ih =>
    intro st
    rw [List.foldl_cons, List.flatMap_cons, List.foldl_append, ← ih,
      feature_scan_eq nc X y st f hy hcl]

lemma best_node_split_eq_foldl (nc nf : ℕ) (X : List Obs) (y : List ℕ)
    (hy : y.length = X.length) (hcl : ∀ c ∈ y, c < nc) :
    best_node_split nc nf X y =
      (((all_candidates nc nf X y).foldl sel_step
          ⟨parent_gini nc X y, none, none⟩).bestFeature,
       ((all_candidates nc nf X y).foldl sel_step
          ⟨parent_gini nc X y, none, none⟩).bestThreshold) := by
  unfold best_node_split all_candidates parent_gini
  dsimp only
  rw [foldl_feature_scan_flatMap nc X y hy hcl]

lemma mem_feature_candidates (nc : ℕ) (X : List Obs) (y : List ℕ) (f : ℕ) (c : Candidate)
    (h : c ∈ feature_candidates nc X y f) :
    c.feature = f ∧ 1 ≤ c.idx ∧ c.idx < X.length
      ∧ ((sort_by_feature X y f).map Prod.fst).getD c.idx 0
          ≠ ((sort_by_feature X y f).map Prod.fst).getD (c.idx - 1) 0
      ∧ c.threshold = (((sort_by_feature X y f).map Prod.fst).getD (c.idx - 1) 0
          + ((sort_by_feature X y f).map Prod.fst).getD c.idx 0) / 2 := by
  unfold feature_candidates at h
  dsimp only at h
  rw [List.mem_filterMap] at h
  obtain ⟨i, hi, hcand⟩ := h
  rw [List.mem_range'_1] at hi
  unfold mk_candidate at hcand
  by_cases hskip : ((sort_by_feature X y f).map Prod.fst).getD i 0
      = ((sort_by_feature X y f).map Prod.fst).getD (i - 1) 0
  · rw [if_pos hskip] at hcand
    exact absurd hcand (by simp)
  · rw [if_neg hskip] at hcand
    obtain rfl := Option.some_injective _ hcand
    refine ⟨rfl, ?_, ?_, hskip, rfl⟩
    · show 1 ≤ i
      omega
    · show i < X.length
      omega

lemma all_candidates_idx_bounds (nc nf : ℕ) (X : List Obs) (y : List ℕ) :
    ∀ c ∈ all_candidates nc nf X y, 0 < c.idx ∧ c.idx < X.length := by
  intro c hc
  unfold all_candidates at hc
  rw [List.mem_flatMap] at hc
  obtain ⟨f, _, hf⟩ := hc
  obtain ⟨_, h1, h2, _, _⟩ := mem_feature_candidates nc X y f c hf
  omega

lemma best_split_gives_candidate (nc nf : ℕ) (X : List Obs) (y : List ℕ)
    (hy : y.length = X.length) (hcl : ∀ cl ∈ y, cl < nc) (f : ℕ) (t : ℚ)
    (h : best_node_split nc nf X y = (some f, some t)) :
    ∃ c ∈ all_candidates nc nf X y, c.feature = f ∧ c.threshold = t := by
  rw [best_node_split_eq_foldl nc nf X y hy hcl] at h
  by_cases himp : ∃ c ∈ all_candidates nc nf X y, c.wgini < parent_gini nc X y
  · obtain ⟨l₁, c, l₂, hcs, _, _, _, hfold⟩ :=
      foldl_sel_step_improvement (all_candidates nc nf X y)
        ⟨parent_gini nc X y, none, none⟩ (by simpa using himp)
    rw [hfold] at h
    obtain ⟨hf, ht⟩ := Prod.mk.injEq .. ▸ h
    refine ⟨c, ?_, Option.some_injective _ hf.symm ▸ rfl, Option.some_injective _ ht.symm ▸ rfl⟩
    rw [hcs]
    exact List.mem_append.2 (Or.inr (List.mem_cons_self c l₂))
  · push_neg at himp
    rw [foldl_sel_step_no_improvement _ _ (by simpa using himp)] at h
    exact absurd h (by simp)

lemma threshold_separates (nc nf : ℕ) (X : List Obs) (y : List ℕ)
    (hy : y.length = X.length) (hcl : ∀ cl ∈ y, cl < nc) (f : ℕ) (t : ℚ)
    (h : best_node_split nc nf X y = (some f, some t)) :
    (∀ row ∈ X, colD row f < t ∨ t < colD row f)
    ∧ (∃ row ∈ X, colD row f < t) ∧ (∃ row ∈ X, t < colD row f) := by
  obtain ⟨c, hcmem, hcf, hct⟩ := best_split_gives_candidate nc nf X y hy hcl f t h
  unfold all_candidates at hcmem
  rw [List.mem_flatMap] at hcmem
  obtain ⟨f', _, hf'⟩ := hcmem
  obtain ⟨hfeat, hge1, hltn, hne', hthr⟩ := mem_feature_candidates nc X y f' c hf'
  have hff : f' = f := by rw [← hcf, hfeat]
  subst hff
  have hsvp : ((sort_by_feature X y f').map Prod.fst).Perm (X.map fun row => colD row f') :=
    sv_perm X y f' hy
  have hsvlen : ((sort_by_feature X y f').map Prod.fst).length = X.length := by
    rw [hsvp.length_eq, List.length_map]
  have hsorted : List.Sorted (· ≤ ·) ((sort_by_feature X y f').map Prod.fst) :=
    sv_sorted X y f'
  have hidx : c.idx < ((sort_by_feature X y f').map Prod.fst).length := by omega
  have hidx1 : c.idx - 1 < ((sort_by_feature X y f').map Prod.fst).length := by omega
  have hga : ((sort_by_feature X y f').map Prod.fst).getD (c.idx - 1) 0
      = ((sort_by_feature X y f').map Prod.fst).get ⟨c.idx - 1, hidx1⟩ := by
    rw [List.getD_eq_getElem _ _ hidx1]
    rfl
  have hgb : ((sort_by_feature X y f').map Prod.fst).getD c.idx 0
      = ((sort_by_feature X y f').map Prod.fst).get ⟨c.idx, hidx⟩ := by
    rw [List.getD_eq_getElem _ _ hidx]
    rfl
  have hab : ((sort_by_feature X y f').map Prod.fst).getD (c.idx - 1) 0
      ≤ ((sort_by_feature X y f').map Prod.fst).getD c.idx 0 := by
    rw [hga, hgb]
    exact hsorted.rel_get_of_lt (by simp [Fin.lt_def]; omega)
  have hab' : ((sort_by_feature X y f').map Prod.fst).getD (c.idx - 1) 0
      < ((sort_by_feature X y f').map Prod.fst).getD c.idx 0 :=
    lt_of_le_of_ne hab (fun heq => hne' heq.symm)
  have hteq : t = (((sort_by_feature X y f').map Prod.fst).getD (c.idx - 1) 0
      + ((sort_by_feature X y f').map Prod.fst).getD c.idx 0) / 2 := by
    rw [← hct, hthr]
  have hat : ((sort_by_feature X y f').map Prod.fst).getD (c.idx - 1) 0 < t := by
    rw [hteq]; linarith
  have hbt : t < ((sort_by_feature X y f').map Prod.fst).getD c.idx 0 := by
    rw [hteq]; linarith
  refine ⟨?_, ?_, ?_⟩
  · intro row hrow
    have hv : colD row f' ∈ (sort_by_feature X y f').map Prod.fst :=
      hsvp.mem_iff.2 (List.mem_map_of_mem _ hrow)
    obtain ⟨j, hj, hjv⟩ := List.mem_iff_getElem.1 hv
    rcases lt_or_ge j c.idx with hlt' | hge'
    · left
      have hjle : ((sort_by_feature X y f').map Prod.fst)[j]
          ≤ ((sort_by_feature X y f').map Prod.fst).getD (c.idx - 1) 0 := by
        rcases eq_or_lt_of_le (by omega : j ≤ c.idx - 1) with heq | hlt''
        · subst heq
          rw [List.getD_eq_getElem _ _ hj]
        · rw [hga]
          exact hsorted.rel_get_of_lt (by simp [Fin.lt_def]; omega)
      rw [← hjv]
      exact lt_of_le_of_lt hjle hat
    · right
      have hjge : ((sort_by_feature X y f').map Prod.fst).getD c.idx 0
          ≤ ((sort_by_feature X y f').map Prod.fst)[j] := by
        rcases eq_or_lt_of_le hge' with heq | hlt''
        · subst heq
          rw [List.getD_eq_getElem _ _ hj]
        · rw [hgb]
          exact hsorted.rel_get_of_lt (by simp [Fin.lt_def]; omega)
      rw [← hjv]
      exact lt_of_lt_of_le hbt hjge
  · have hmem : ((sort_by_feature X y f').map Prod.fst).getD (c.idx - 1) 0
        ∈ (sort_by_feature X y f').map Prod.fst := by
      rw [List.getD_eq_getElem _ _ hidx1]
      exact List.getElem_mem hidx1
    obtain ⟨row, hrow, hrv⟩ := List.mem_map.1 (hsvp.mem_iff.1 hmem)
    exact ⟨row, hrow, by rw [hrv]; exact hat⟩
  · have hmem : ((sort_by_feature X y f').map Prod.fst).getD c.idx 0
        ∈ (sort_by_feature X y f').map Prod.fst := by
      rw [List.getD_eq_getElem _ _ hidx]
      exact List.getElem_mem hidx
    obtain ⟨row, hrow, hrv⟩ := List.mem_map.1 (hsvp.mem_iff.1 hmem)
    exact ⟨row, hrow, by rw [hrv]; exact hbt⟩

lemma filter_partition_length {α : Type} (l : List α) (p q : α → Bool)
    (h : ∀ x ∈ l, p x ≠ q x) :
    (l.filter p).length + (l.filter q).length = l.length := by
  induction l with
  | nil => rfl
  | cons x l ih =>
    have hx := h x (by simp)
    have ih' := ih fun x' hx' => h x' (by simp [hx'])
    rw [List.filter_cons, List.filter_cons]
    cases hp : p x <;> cases hq : q x <;> simp_all <;> omega

/-- C1. On a non-empty subset with aligned labels, `best_node_split`
either returns `(None, None)` — exactly when no candidate's weighted Gini
impurity strictly improves on the parent's own impurity — or returns the
feature/threshold of the first candidate (features in ascending index
order, thresholds ascending within a feature) attaining the minimal
weighted Gini impurity among all candidates, that minimum being strictly
below the parent's impurity. -/
theorem best_node_split_first_minimum (nc nf : ℕ) (X : List Obs) (y : List ℕ)
    (hne : X ≠ []) (hy : y.length = X.length) (hcl : ∀ cl ∈ y, cl < nc) :
    (best_node_split nc nf X y = (none, none)
       ∧ ∀ c ∈ all_candidates nc nf X y, parent_gini nc X y ≤ c.wgini)
    ∨ (∃ l₁ c l₂, all_candidates nc nf X y = l₁ ++ c :: l₂
       ∧ best_node_split nc nf X y = (some c.feature, some c.threshold)
       ∧ c.wgini < parent_gini nc X y
       ∧ (∀ q ∈ all_candidates nc nf X y, c.wgini ≤ q.wgini)
       ∧ (∀ p ∈ l₁, c.wgini < p.wgini)) := by
  rw [best_node_split_eq_foldl nc nf X y hy hcl]
  by_cases h : ∃ c ∈ all_candidates nc nf X y, c.wgini < parent_gini nc X y
  · right
    obtain ⟨l₁, c, l₂, hcs, hlt, hl₁, hl₂, hfold⟩ :=
      foldl_sel_step_improvement (all_candidates nc nf X y)
        ⟨parent_gini nc X y, none, none⟩ (by simpa using h)
    refine ⟨l₁, c, l₂, hcs, by rw [hfold], hlt, ?_, hl₁⟩
    intro q hq
    rw [hcs] at hq
    rcases List.mem_append.1 hq with hq | hq
    · exact le_of_lt (hl₁ q hq)
    · rcases List.mem_cons.1 hq with hq | hq
      · rw [hq]
      · exact hl₂ q hq
  · left
    push_neg at h
    rw [foldl_sel_step_no_improvement _ _ (by simpa using h)]
    exact ⟨rfl, h⟩

/-- C1, witness. -/
theorem best_node_split_first_minimum_witness :
    scenario_X ≠ [] ∧ scenario_y.length = scenario_X.length
    ∧ (∀ cl ∈ scenario_y, cl < 2)
    ∧ ((best_node_split 2 1 scenario_X scenario_y = (none, none)
         ∧ ∀ c ∈ all_candidates 2 1 scenario_X scenario_y,
             parent_gini 2 scenario_X scenario_y ≤ c.wgini)
       ∨ (∃ l₁ c l₂, all_candidates 2 1 scenario_X scenario_y = l₁ ++ c :: l₂
         ∧ best_node_split 2 1 scenario_X scenario_y = (some c.feature, some c.threshold)
         ∧ c.wgini < parent_gini 2 scenario_X scenario_y
         ∧ (∀ q ∈ all_candidates 2 1 scenario_X scenario_y, c.wgini ≤ q.wgini)
         ∧ (∀ p ∈ l₁, c.wgini < p.wgini))) :=
  ⟨by simp [scenario_X], by simp [scenario_X, scenario_y],
   by intro cl hcl; simp [scenario_y] at hcl; omega,
   best_node_split_first_minimum 2 1 scenario_X scenario_y
     (by simp [scenario_X]) (by simp [scenario_X, scenario_y])
     (by intro cl hcl; simp [scenario_y] at hcl; omega)⟩

/-- C4. When `best_node_split` returns a `(feature, threshold)` pair,
every observation of the subset is strictly below or strictly above the
threshold (never equal to it — the threshold is the midpoint of two
adjacent distinct sorted values), so the `< threshold` and `> threshold`
partitions built by `build_tree` are disjoint, cover the subset, and their
sizes add up to the parent subset's size. -/
theorem split_partitions_exactly (nc nf : ℕ) (X : List Obs) (y : List ℕ)
    (hy : y.length = X.length) (hcl : ∀ cl ∈ y, cl < nc) (f : ℕ) (t : ℚ)
    (h : best_node_split nc nf X y = (some f, some t)) :
    (∀ p ∈ X.zip y, colD p.1 f < t ∨ t < colD p.1 f)
    ∧ (∀ row ∈ X, colD row f ≠ t)
    ∧ (left_pairs f t X y).length + (right_pairs f t X y).length = X.length := by
  obtain ⟨hsep, _, _⟩ := threshold_separates nc nf X y hy hcl f t h
  have hzip : ∀ p ∈ X.zip y, colD p.1 f < t ∨ t < colD p.1 f := by
    intro p hp
    exact hsep p.1 (List.of_mem_zip hp).1
  refine ⟨hzip, fun row hrow => ?_, ?_⟩
  · rcases hsep row hrow with h' | h'
    · exact ne_of_lt h'
    · exact ne_of_gt h'
  · unfold left_pairs right_pairs
    rw [filter_partition_length]
    · rw [List.length_zip, hy, min_self]
    · intro x hx
      rcases hzip x hx with h' | h'
      · have h'' : ¬ (t < colD x.1 f) := asymm h'
        simp [h', h'']
      · have h'' : ¬ (colD x.1 f < t) := asymm h'
        simp [h', h'']

/-- C4, witness. -/
theorem split_partitions_exactly_witness :
    scenario_y.length = scenario_X.length ∧ (∀ cl ∈ scenario_y, cl < 2)
    ∧ best_node_split 2 1 scenario_X scenario_y = (some 0, some (5 / 2))
    ∧ ((∀ p ∈ scenario_X.zip scenario_y, colD p.1 0 < 5 / 2 ∨ 5 / 2 < colD p.1 0)
       ∧ (∀ row ∈ scenario_X, colD row 0 ≠ 5 / 2)
       ∧ (left_pairs 0 (5 / 2) scenario_X scenario_y).length
           + (right_pairs 0 (5 / 2) scenario_X scenario_y).length = scenario_X.length) :=
  ⟨by simp [scenario_X, scenario_y],
   by intro cl hcl; simp [scenario_y] at hcl; omega,
   best_node_split_scenario,
   split_partitions_exactly 2 1 scenario_X scenario_y
     (by simp [scenario_X, scenario_y])
     (by intro cl hcl; simp [scenario_y] at hcl; omega)
     0 (5 / 2) best_node_split_scenario⟩

/-- C9. On a non-empty subset, a successful `best_node_split` yields a
threshold strictly between two observed feature values, so both recursive
`build_tree` subsets are non-empty; consequently every divisor of the
search is positive: the subset size is positive and every candidate's
midpoint index `i` satisfies `0 < i < n` (so `n_observations_left = i` and
`n_observations_right = n - i` are both positive). -/
theorem recursive_subsets_nonempty (nc nf : ℕ) (X : List Obs) (y : List ℕ)
    (hne : X ≠ []) (hy : y.length = X.length) (hcl : ∀ cl ∈ y, cl < nc)
    (f : ℕ) (t : ℚ) (h : best_node_split nc nf X y = (some f, some t)) :
    left_pairs f t X y ≠ [] ∧ right_pairs f t X y ≠ []
    ∧ 0 < X.length
    ∧ ∀ c ∈ all_candidates nc nf X y, 0 < c.idx ∧ c.idx < X.length := by
  obtain ⟨hsep, ⟨rowl, hrowl, hrl⟩, ⟨rowr, hrowr, hrr⟩⟩ :=
    threshold_separates nc nf X y hy hcl f t h
  refine ⟨?_, ?_, List.length_pos.2 hne, all_candidates_idx_bounds nc nf X y⟩
  · intro hnil
    unfold left_pairs at hnil
    rw [List.filter_eq_nil_iff] at hnil
    obtain ⟨j, hj, hjrow⟩ := List.mem_iff_getElem.1 hrowl
    have hjy : j < y.length := by omega
    have hjz : j < (X.zip y).length := by
      rw [List.length_zip, hy, min_self]
      exact hj
    have hmem : (X[j], y[j]) ∈ X.zip y := by
      have := List.getElem_mem hjz
      rwa [List.getElem_zip] at this
    have := hnil _ hmem
    rw [hjrow] at this
    simp [hrl] at this
  · intro hnil
    unfold right_pairs at hnil
    rw [List.filter_eq_nil_iff] at hnil
    obtain ⟨j, hj, hjrow⟩ := List.mem_iff_getElem.1 hrowr
    have hjy : j < y.length := by omega
    have hjz : j < (X.zip y).length := by
      rw [List.length_zip, hy, min_self]
      exact hj
    have hmem : (X[j], y[j]) ∈ X.zip y := by
      have := List.getElem_mem hjz
      rwa [List.getElem_zip] at this
    have := hnil _ hmem
    rw [hjrow] at this
    simp [hrr] at this

/-- C9, witness. -/
theorem recursive_subsets_nonempty_witness :
    scenario_X ≠ [] ∧ scenario_y.length = scenario_X.length
    ∧ (∀ cl ∈ scenario_y, cl < 2)
    ∧ best_node_split 2 1 scenario_X scenario_y = (some 0, some (5 / 2))
    ∧ (left_pairs 0 (5 / 2) scenario_X scenario_y ≠ []
       ∧ right_pairs 0 (5 / 2) scenario_X scenario_y ≠ []
       ∧ 0 < scenario_X.length
       ∧ ∀ c ∈ all_candidates 2 1 scenario_X scenario_y,
           0 < c.idx ∧ c.idx < scenario_X.length) :=
  ⟨by simp [scenario_X], by simp [scenario_X, scenario_y],
   by intro cl hcl; simp [scenario_y] at hcl; omega,
   best_node_split_scenario,
   recursive_subsets_nonempty 2 1 scenario_X scenario_y
     (by simp [scenario_X]) (by simp [scenario_X, scenario_y])
     (by intro cl hcl; simp [scenario_y] at hcl; omega)
     0 (5 / 2) best_node_split_scenario⟩

end DecisionTree
